import Mathlib

/-!
Verification development for the skill-discovery engine of CodexPotter
(`tui/src/skills_discovery.rs`).

The Rust module is shallowly embedded: filesystem queries, environment
variables and the external YAML parser are abstracted into an `Env`
record of total functions, paths are modelled as lists of components
(`PathBuf` joins append a component, `Path::parent` drops the last one,
`Path::ancestors` walks towards the root, `Path::cmp` is lexicographic
on components), and the breadth-first directory walk is written with an
explicit fuel parameter; a theorem shows the canonical fuel is never
exhausted, which is the faithful rendering of termination of the Rust
`while let` loop.
-/

namespace SkillsDiscovery

/-- Paths are modelled as the list of their components, root first; `[]`
is the filesystem root.  `PathBuf::join` of one component is `++ [c]`. -/
abbrev FsPath := List String

/-- Constant `SKILL_FILENAME` from the source. -/
def SKILL_FILENAME : String := "SKILL.md"

/-- Constant `SKILLS_DIR_NAME` from the source. -/
def SKILLS_DIR_NAME : String := "skills"

/-- Constant `SYSTEM_SKILLS_DIR_NAME` from the source. -/
def SYSTEM_SKILLS_DIR_NAME : String := ".system"

/-- Constant `MAX_SCAN_DEPTH` from the source. -/
def MAX_SCAN_DEPTH : Nat := 6

/-- Constant `MAX_SKILLS_DIRS_PER_ROOT` from the source. -/
def MAX_SKILLS_DIRS_PER_ROOT : Nat := 2000

/-- Enum `SkillScope`. -/
inductive SkillScope where
  | Repo
  | User
  | System
  | Admin
deriving DecidableEq

/-- Struct `SkillInterface`. -/
structure SkillInterface where
  display_name : Option String
  short_description : Option String
deriving DecidableEq

/-- Struct `SkillMetadata`; `path` holds the canonical path. -/
structure SkillMetadata where
  name : String
  description : String
  short_description : Option String
  interface : Option SkillInterface
  path : FsPath
  scope : SkillScope
deriving DecidableEq

/-- Method `SkillMetadata::display_name`. -/
def SkillMetadata.display_name (s : SkillMetadata) : String :=
  ((s.interface.bind (fun i => i.display_name)).getD s.name)

/-- Method `SkillMetadata::display_description`. -/
def SkillMetadata.display_description (s : SkillMetadata) : String :=
  ((((s.interface.bind (fun i => i.short_description))).or
      s.short_description).getD s.description)

/-- Struct `SkillFrontmatterMetadata` (the optional nested
`metadata.short-description` field of the front matter). -/
structure SkillFrontmatterMetadata where
  short_description : Option String
deriving DecidableEq

/-- Struct `SkillFrontmatter`: the shape `serde_yaml` deserialises the
front-matter block into. -/
structure SkillFrontmatter where
  name : String
  description : String
  metadata : SkillFrontmatterMetadata
deriving DecidableEq

/-- Struct `SkillInterfaceFile` (shape of the `interface:` section of
`agents/openai.yaml`). -/
structure SkillInterfaceFile where
  display_name : Option String
  short_description : Option String
deriving DecidableEq

/-- Struct `SkillMetadataFile` (shape of `agents/openai.yaml`). -/
structure SkillMetadataFile where
  interface : Option SkillInterfaceFile
deriving DecidableEq

/-- File type of a directory entry as reported by `DirEntry::file_type`
(no symlink following): exactly one of symlink / dir / file, or some
other kind of object. -/
inductive FileType where
  | symlink
  | dir
  | file
  | other
deriving DecidableEq

def FileType.is_symlink : FileType → Bool
  | .symlink => true
  | _ => false

def FileType.is_dir : FileType → Bool
  | .dir => true
  | _ => false

def FileType.is_file : FileType → Bool
  | .file => true
  | _ => false

/-- One directory entry yielded by `read_dir` (entries whose retrieval
itself failed are dropped by `entries.flatten()` in the source and are
therefore not modelled).  `file_name` is
`path.file_name().and_then(|n| n.to_str())`: `none` models a missing or
non-UTF-8 name.  `file_type` is `entry.file_type()`: `none` models the
query failing. -/
structure DirEntry where
  path : FsPath
  file_name : Option String
  file_type : Option FileType
deriving DecidableEq

/-- The ambient filesystem / process environment: every effectful query
the Rust module performs, as a total function.  `none` models the
corresponding `Err`/`None` outcome.  The two `yaml_parse_*` fields model
the external `serde_yaml::from_str` calls at their respective target
types (the YAML parser is an external crate, not code of this module). -/
structure Env where
  canonicalize : FsPath → Option FsPath
  is_dir : FsPath → Bool
  read_dir : FsPath → Option (List DirEntry)
  stat_is_dir : FsPath → Option Bool
  read_to_string : FsPath → Option String
  path_exists : FsPath → Bool
  yaml_parse_skill : String → Except String SkillFrontmatter
  yaml_parse_metadata_file : String → Except String SkillMetadataFile
  codex_home_var : Option String
  home_dir : Option FsPath
  path_of_string : String → FsPath

/-- Rust `str::trim_end_matches('\r')`: remove every trailing carriage
return.  (`str::lines` itself already strips one `\r` from a `\r\n`
ending; composing it with this function gives the same strings as the
model below, which splits on the newline only.) -/
def trimEndCR (s : String) : String :=
  String.mk (((s.data.reverse).dropWhile (fun c => c = '\r')).reverse)

/-- Rust `str::trim`: remove leading and trailing whitespace. -/
def rustTrim (s : String) : String :=
  String.mk ((((s.data.dropWhile Char.isWhitespace).reverse).dropWhile
    Char.isWhitespace).reverse)

/-- Splitting a character list at newlines (the separator list of
`str::lines`), accumulator first. -/
def splitNewlinesAux : List Char → List Char → List String
  | acc, [] => [String.mk acc.reverse]
  | acc, c :: cs =>
    if c = '\n' then String.mk acc.reverse :: splitNewlinesAux [] cs
    else splitNewlinesAux (c :: acc) cs

/-- Rust `str::lines`, up to the trailing-`\r` stripping that the source
reapplies anyway: split on `'\n'`, with no empty final line for a
trailing newline. -/
def rustLines (s : String) : List String :=
  let parts := splitNewlinesAux [] s.data
  if parts.getLast? = some "" then parts.dropLast else parts

/-- Rust `str::starts_with('.')`. -/
def startsWithDot (s : String) : Bool :=
  match s.data with
  | [] => false
  | c :: _ => c = '.'

/-- Rust chain `.as_deref().map(str::trim).filter(|v| !v.is_empty()).map(str::to_string)`. -/
def trimNonEmpty (v : Option String) : Option String :=
  (v.map rustTrim).filter (fun t => !(t == ""))

/-- Error enum `SkillParseError`.  The payloads of `Read` and
`InvalidYaml` carry no information the module inspects, so `Read` is a
bare constructor and `InvalidYaml` keeps the message string. -/
inductive SkillParseError where
  | Read
  | MissingFrontmatter
  | InvalidYaml (msg : String)
  | MissingField (field : String)
deriving DecidableEq

/-- Loop body of `extract_frontmatter`: scan the remaining lines for the
closing delimiter, accumulating the stripped lines seen so far. -/
def collectFrontmatter : List String → String → Option String
  | [], _ => none
  | line :: rest, yaml =>
    let trimmed := trimEndCR line
    if trimmed = "---" then some yaml
    else collectFrontmatter rest (yaml ++ trimmed ++ "\n")

/-- Function `extract_frontmatter`. -/
def extract_frontmatter (contents : String) : Option String :=
  match rustLines contents with
  | [] => none
  | first :: rest =>
    if trimEndCR first = "---" then collectFrontmatter rest ""
    else none

/-- Rust `Path::parent`: `none` at the root, otherwise drop the last
component. -/
def parentDir (p : FsPath) : Option FsPath :=
  match p with
  | [] => none
  | _ :: _ => some p.dropLast

/-- Function `load_skill_interface`. -/
def load_skill_interface (env : Env) (skill_path : FsPath) : Option SkillInterface :=
  match parentDir skill_path with
  | none => none
  | some skill_dir =>
    let metadata_path := skill_dir ++ ["agents", "openai.yaml"]
    if !env.path_exists metadata_path then none
    else
      match env.read_to_string metadata_path with
      | none => none
      | some contents =>
        match env.yaml_parse_metadata_file contents with
        | .error _ => none
        | .ok parsed =>
          match parsed.interface with
          | none => none
          | some itf =>
            let display_name := trimNonEmpty itf.display_name
            let short_description := trimNonEmpty itf.short_description
            if display_name = none ∧ short_description = none then none
            else some ⟨display_name, short_description⟩

/-- Function `parse_skill_file`. -/
def parse_skill_file (env : Env) (path : FsPath) (scope : SkillScope) :
    Except SkillParseError SkillMetadata :=
  match env.read_to_string path with
  | none => .error .Read
  | some contents =>
    match extract_frontmatter contents with
    | none => .error .MissingFrontmatter
    | some frontmatter =>
      match env.yaml_parse_skill frontmatter with
      | .error e => .error (.InvalidYaml e)
      | .ok parsed =>
        if rustTrim parsed.name == "" then .error (.MissingField "name")
        else if rustTrim parsed.description == "" then
          .error (.MissingField "description")
        else
          .ok { name := rustTrim parsed.name
                description := rustTrim parsed.description
                short_description := trimNonEmpty parsed.metadata.short_description
                interface := load_skill_interface env path
                path := (env.canonicalize path).getD path
                scope := scope }

/-- Struct `SkillRoot`. -/
structure SkillRoot where
  path : FsPath
  scope : SkillScope
  follow_symlinks : Bool
deriving DecidableEq

/-- Mutable state of the breadth-first walk in
`discover_skills_under_root`: the pending queue of `(dir, depth)`
pairs, the visited set (a list, used only through membership and size),
the accumulated output and the truncation flag.  `trace` is a ghost
field recording each directory popped from the queue, in order; it is
only appended to and influences nothing. -/
structure WalkState where
  queue : List (FsPath × Nat)
  visited : List FsPath
  out : List SkillMetadata
  truncated_by_dir_limit : Bool
  trace : List FsPath
deriving DecidableEq

/-- Inner function `enqueue_dir`. -/
def enqueue_dir (st : WalkState) (path : FsPath) (depth : Nat) : WalkState :=
  if depth > MAX_SCAN_DEPTH then st
  else if MAX_SKILLS_DIRS_PER_ROOT ≤ st.visited.length then
    { st with truncated_by_dir_limit := true }
  else if path ∈ st.visited then st
  else { st with visited := st.visited ++ [path],
                 queue := st.queue ++ [(path, depth)] }

/-- Body of the `for entry in entries.flatten()` loop of
`discover_skills_under_root`, for one entry. -/
def process_entry (env : Env) (root : SkillRoot) (depth : Nat)
    (st : WalkState) (entry : DirEntry) : WalkState :=
  match entry.file_name with
  | none => st
  | some file_name =>
    if startsWithDot file_name then st
    else
      match entry.file_type with
      | none => st
      | some file_type =>
        if file_type.is_symlink then
          if !root.follow_symlinks then st
          else
            match env.stat_is_dir entry.path with
            | none => st
            | some is_dir =>
              if is_dir then
                match env.canonicalize entry.path with
                | none => st
                | some resolved_dir => enqueue_dir st resolved_dir (depth + 1)
              else st
        else if file_type.is_dir then
          match env.canonicalize entry.path with
          | none => st
          | some resolved_dir => enqueue_dir st resolved_dir (depth + 1)
        else if file_type.is_file && file_name = SKILL_FILENAME then
          match parse_skill_file env entry.path root.scope with
          | .ok skill => { st with out := st.out ++ [skill] }
          | .error _ => st
        else st

/-- The `while let Some((dir, depth)) = queue.pop_front()` loop of
`discover_skills_under_root`, driven by explicit fuel.  A read failure
on a directory skips that directory and continues. -/
def walk_loop (env : Env) (root : SkillRoot) : Nat → WalkState → Option WalkState
  | 0, _ => none
  | fuel + 1, st =>
    match st.queue with
    | [] => some st
    | (dir, depth) :: rest =>
      let st1 := { st with queue := rest, trace := st.trace ++ [dir] }
      match env.read_dir dir with
      | none => walk_loop env root fuel st1
      | some entries =>
        walk_loop env root fuel (entries.foldl (process_entry env root depth) st1)

/-- Fuel sufficient for any walk (proved below): one pop per unit. -/
def WALK_FUEL : Nat := MAX_SKILLS_DIRS_PER_ROOT + 1

/-- Function `discover_skills_under_root`.  The `none` fallback arm is
dead code: the fuel-sufficiency theorem shows `walk_loop` always yields
`some` at `WALK_FUEL`. -/
def discover_skills_under_root (env : Env) (root : SkillRoot)
    (out : List SkillMetadata) : List SkillMetadata :=
  match env.canonicalize root.path with
  | none => out
  | some root_dir =>
    if !env.is_dir root_dir then out
    else
      match walk_loop env root WALK_FUEL
          ⟨[(root_dir, 0)], [root_dir], out, false, []⟩ with
      | some st => st.out
      | none => out

/-- Bookkeeping invariant of the walk: the visited set never holds a
path twice, a path is popped (recorded in `trace`) at most once and
never while still queued, and everything ever queued or popped was first
inserted into the visited set. -/
def VisitInv (st : WalkState) : Prop :=
  st.visited.Nodup ∧
  (st.trace ++ st.queue.map Prod.fst).Nodup ∧
  (∀ pd ∈ st.queue, pd.1 ∈ st.visited) ∧
  (∀ p ∈ st.trace, p ∈ st.visited)

/-- Rust `Path::ancestors` of the starting directory: the path itself,
then each parent, down to the filesystem root — i.e. the prefixes of the
component list, longest first. -/
def ancestors (p : FsPath) : List FsPath :=
  (p.inits).reverse

/-- Function `find_repo_root`: first ancestor whose `.git` child exists. -/
def find_repo_root (env : Env) (cwd : FsPath) : Option FsPath :=
  (ancestors cwd).find? (fun ancestor => env.path_exists (ancestor ++ [".git"]))

/-- The `scan` combinator used by `repo_dirs_between`: yield ancestors,
stopping after (and including) the one equal to the repository root. -/
def scan_until_root (repo_root : Option FsPath) : List FsPath → List FsPath
  | [] => []
  | a :: rest =>
    if some a = repo_root then [a] else a :: scan_until_root repo_root rest

/-- Function `repo_dirs_between`. -/
def repo_dirs_between (env : Env) (cwd : FsPath) : List FsPath :=
  scan_until_root (find_repo_root env cwd) (ancestors cwd)

/-- Function `find_codex_home`: the `CODEX_HOME` environment variable if
set and non-empty, else `~/.codex`. -/
def find_codex_home (env : Env) : Option FsPath :=
  match env.codex_home_var with
  | some val =>
    if !(val == "") then some (env.path_of_string val)
    else env.home_dir.map (fun home => home ++ [".codex"])
  | none => env.home_dir.map (fun home => home ++ [".codex"])

/-- Function `skill_roots` (the `cfg(unix)` block is modelled as taken:
this development targets the Unix configuration). -/
def skill_roots (env : Env) (cwd : FsPath) : List SkillRoot :=
  let roots := (repo_dirs_between env cwd).foldl
    (fun roots dir =>
      let skills_dir := dir ++ [".codex", SKILLS_DIR_NAME]
      if env.is_dir skills_dir then
        roots ++ [⟨skills_dir, SkillScope.Repo, true⟩]
      else roots)
    []
  let roots :=
    match find_codex_home env with
    | some codex_home =>
      let user_skills := codex_home ++ [SKILLS_DIR_NAME]
      roots ++ [⟨user_skills ++ [SYSTEM_SKILLS_DIR_NAME], SkillScope.System, false⟩,
                ⟨user_skills, SkillScope.User, true⟩]
    | none => roots
  roots ++ [⟨["etc", "codex", SKILLS_DIR_NAME], SkillScope.Admin, true⟩]

/-- Inner function `scope_rank` of `load_skills`. -/
def scope_rank : SkillScope → Nat
  | .Repo => 0
  | .User => 1
  | .System => 2
  | .Admin => 3

/-- Boolean strict lexicographic comparison of character lists: the
order Rust `str::cmp` induces (bytewise on UTF-8, which agrees with
codepointwise). -/
def charListLtb : List Char → List Char → Bool
  | [], [] => false
  | [], _ :: _ => true
  | _ :: _, [] => false
  | a :: as, b :: bs => a < b || (a = b && charListLtb as bs)

/-- Boolean strict comparison of strings (Rust `String::cmp`). -/
def strLtb (a b : String) : Bool :=
  charListLtb a.data b.data

/-- Boolean strict comparison of paths (Rust `Path::cmp`, componentwise
lexicographic). -/
def pathLtb : FsPath → FsPath → Bool
  | [], [] => false
  | [], _ :: _ => true
  | _ :: _, [] => false
  | a :: as, b :: bs => strLtb a b || (a = b && pathLtb as bs)

/-- Boolean form of the sort comparator of `load_skills`: true exactly
when the Rust comparator (scope rank, then name, then path) does not
return `Greater` on `(a, b)`. -/
def skill_le (a b : SkillMetadata) : Bool :=
  scope_rank a.scope < scope_rank b.scope ||
    (scope_rank a.scope = scope_rank b.scope &&
      (strLtb a.name b.name ||
        (a.name = b.name && !(pathLtb b.path a.path))))

/-- The sort comparator of `load_skills` as a relation. -/
def skillLE (a b : SkillMetadata) : Prop :=
  skill_le a b = true

instance : DecidableRel skillLE := fun a b =>
  instDecidableEqBool (skill_le a b) true

/-- Sort key of a skill: scope rank, then name, then path,
lexicographically. -/
def skillKey (s : SkillMetadata) : ℕ ×ₗ (String ×ₗ FsPath) :=
  toLex (scope_rank s.scope, toLex (s.name, s.path))


/-- The `retain`/`HashSet::insert` deduplication pass of `load_skills`:
keep each element whose path was not seen before it. -/
def dedup_by_path : List SkillMetadata → List FsPath → List SkillMetadata
  | [], _ => []
  | skill :: rest, seen =>
    if skill.path ∈ seen then dedup_by_path rest seen
    else skill :: dedup_by_path rest (seen ++ [skill.path])

/-- The root-scanning loop of `load_skills`: fold
`discover_skills_under_root` over the roots, accumulating into one list. -/
def raw_skills (env : Env) (cwd : FsPath) : List SkillMetadata :=
  (skill_roots env cwd).foldl
    (fun out root => discover_skills_under_root env root out) []

/-- Function `load_skills`.  Rust `Vec::sort_by` is a stable sort, and a
stable sort is uniquely determined by its comparator; insertion sort
with the comparator's ≤ relation is that function. -/
def load_skills (env : Env) (cwd : FsPath) : List SkillMetadata :=
  List.insertionSort skillLE (dedup_by_path (raw_skills env cwd) [])

/-- Example skill file contents used by the concrete scenarios below. -/
def skillContent : String := "---\nname: a\ndescription: b\n---\n"

/-- The front-matter block `extract_frontmatter` yields for
`skillContent`. -/
def skillYaml : String := "name: a\ndescription: b\n"

/-- Concrete filesystem for the depth-cap scenario: a chain of nested
directories `r/d1/…/d7` with a `SKILL.md` in `d6` (directory depth 6)
and another in `d7` (directory depth 7). -/
def chainEnv : Env where
  canonicalize := fun p => some p
  is_dir := fun _ => true
  read_dir := fun p =>
    if p = ["r"] then
      some [⟨["r", "d1"], some "d1", some FileType.dir⟩]
    else if p = ["r", "d1"] then
      some [⟨["r", "d1", "d2"], some "d2", some FileType.dir⟩]
    else if p = ["r", "d1", "d2"] then
      some [⟨["r", "d1", "d2", "d3"], some "d3", some FileType.dir⟩]
    else if p = ["r", "d1", "d2", "d3"] then
      some [⟨["r", "d1", "d2", "d3", "d4"], some "d4", some FileType.dir⟩]
    else if p = ["r", "d1", "d2", "d3", "d4"] then
      some [⟨["r", "d1", "d2", "d3", "d4", "d5"], some "d5", some FileType.dir⟩]
    else if p = ["r", "d1", "d2", "d3", "d4", "d5"] then
      some [⟨["r", "d1", "d2", "d3", "d4", "d5", "d6"], some "d6", some FileType.dir⟩]
    else if p = ["r", "d1", "d2", "d3", "d4", "d5", "d6"] then
      some [⟨["r", "d1", "d2", "d3", "d4", "d5", "d6", "d7"], some "d7", some FileType.dir⟩,
            ⟨["r", "d1", "d2", "d3", "d4", "d5", "d6", "SKILL.md"], some "SKILL.md",
              some FileType.file⟩]
    else if p = ["r", "d1", "d2", "d3", "d4", "d5", "d6", "d7"] then
      some [⟨["r", "d1", "d2", "d3", "d4", "d5", "d6", "d7", "SKILL.md"], some "SKILL.md",
              some FileType.file⟩]
    else none
  stat_is_dir := fun _ => some false
  read_to_string := fun p =>
    if p = ["r", "d1", "d2", "d3", "d4", "d5", "d6", "SKILL.md"] then some skillContent
    else if p = ["r", "d1", "d2", "d3", "d4", "d5", "d6", "d7", "SKILL.md"] then
      some skillContent
    else none
  path_exists := fun _ => false
  yaml_parse_skill := fun s =>
    if s = skillYaml then .ok ⟨"a", "b", ⟨none⟩⟩ else .error "unexpected"
  yaml_parse_metadata_file := fun _ => .error "unexpected"
  codex_home_var := none
  home_dir := none
  path_of_string := fun s => [s]

/-- Concatenation of a list of strings (statement helper describing the
front-matter span). -/
def joinLines : List String → String
  | [] => ""
  | l :: ls => l ++ joinLines ls

/-- A string that is non-empty and equal to its own trim (statement
helper for the output invariants). -/
def IsTrimmedNonempty (s : String) : Prop :=
  s ≠ "" ∧ rustTrim s = s

/-- Small concrete environment exercising the parser and the overlay
loader: `["plain"]` is a file without front matter, `["skill","SKILL.md"]`
a well-formed skill without overlay, `["over","SKILL.md"]` one whose
sibling `agents/openai.yaml` carries a padded display name and a
whitespace-only short description. -/
def demoEnv : Env where
  canonicalize := fun p => some p
  is_dir := fun _ => true
  read_dir := fun _ => none
  stat_is_dir := fun _ => some false
  read_to_string := fun p =>
    if p = ["plain"] then some "plain text"
    else if p = ["skill", "SKILL.md"] then some skillContent
    else if p = ["over", "SKILL.md"] then some skillContent
    else if p = ["over", "agents", "openai.yaml"] then some "iface"
    else none
  path_exists := fun p => p = ["over", "agents", "openai.yaml"]
  yaml_parse_skill := fun s =>
    if s = skillYaml then .ok ⟨"a", "b", ⟨none⟩⟩ else .error "bad"
  yaml_parse_metadata_file := fun s =>
    if s = "iface" then .ok ⟨some ⟨some " A Tool ", some " "⟩⟩ else .error "bad"
  codex_home_var := none
  home_dir := none
  path_of_string := fun s => [s]

/-- Concrete environment whose single user root holds one skill whose
front-matter fields carry surrounding whitespace. -/
def userEnv : Env where
  canonicalize := fun p => some p
  is_dir := fun p => p == ["h", "skills"]
  read_dir := fun p =>
    if p = ["h", "skills"] then
      some [⟨["h", "skills", "s1"], some "s1", some FileType.dir⟩]
    else if p = ["h", "skills", "s1"] then
      some [⟨["h", "skills", "s1", "SKILL.md"], some "SKILL.md", some FileType.file⟩]
    else none
  stat_is_dir := fun _ => some false
  read_to_string := fun p =>
    if p = ["h", "skills", "s1", "SKILL.md"] then some skillContent else none
  path_exists := fun _ => false
  yaml_parse_skill := fun s =>
    if s = skillYaml then .ok ⟨" a ", " b ", ⟨some " c "⟩⟩ else .error "bad"
  yaml_parse_metadata_file := fun _ => .error "bad"
  codex_home_var := some "h"
  home_dir := none
  path_of_string := fun s => [s]

theorem charListLtb_iff (as bs : List Char) :
    charListLtb as bs = true ↔ List.Lex (· < ·) as bs := by
  induction as generalizing bs with
  | nil =>
    cases bs with
    | nil =>
      simp only [charListLtb, Bool.false_eq_true, false_iff]
      exact List.Lex.not_nil_right _ _
    | cons b bs =>
      simp only [charListLtb, true_iff]
      exact List.Lex.nil
  | cons a as ih =>
    cases bs with
    | nil =>
      simp only [charListLtb, Bool.false_eq_true, false_iff]
      exact List.Lex.not_nil_right _ _
    | cons b bs =>
      simp only [charListLtb, Bool.or_eq_true, Bool.and_eq_true,
        decide_eq_true_eq, ih]
      constructor
      · rintro (h | ⟨rfl, h⟩)
        · exact List.Lex.rel h
        · exact List.Lex.cons h
      · intro h
        cases h with
        | cons h => exact Or.inr ⟨rfl, h⟩
        | rel h => exact Or.inl h

theorem strLtb_iff (a b : String) : strLtb a b = true ↔ a < b := by
  rw [strLtb, charListLtb_iff, String.lt_iff_toList_lt]
  exact Iff.rfl

theorem path_lt_iff (p q : FsPath) : p < q ↔ List.Lex (· < ·) p q :=
  Iff.rfl

theorem pathLtb_iff (p q : FsPath) : pathLtb p q = true ↔ p < q := by
  rw [path_lt_iff]
  induction p generalizing q with
  | nil =>
    cases q with
    | nil =>
      simp only [pathLtb, Bool.false_eq_true, false_iff]
      exact List.Lex.not_nil_right _ _
    | cons b bs =>
      simp only [pathLtb, true_iff]
      exact List.Lex.nil
  | cons a as ih =>
    cases q with
    | nil =>
      simp only [pathLtb, Bool.false_eq_true, false_iff]
      exact List.Lex.not_nil_right _ _
    | cons b bs =>
      simp only [pathLtb, Bool.or_eq_true, Bool.and_eq_true,
        decide_eq_true_eq, strLtb_iff, ih]
      constructor
      · rintro (h | ⟨rfl, h⟩)
        · exact List.Lex.rel h
        · exact List.Lex.cons h
      · intro h
        cases h with
        | cons h => exact Or.inr ⟨rfl, h⟩
        | rel h => exact Or.inl h

theorem skillLE_iff (a b : SkillMetadata) :
    skillLE a b ↔
      (scope_rank a.scope < scope_rank b.scope ∨
        (scope_rank a.scope = scope_rank b.scope ∧
          (a.name < b.name ∨ (a.name = b.name ∧ a.path ≤ b.path)))) := by
  simp only [skillLE, skill_le, Bool.or_eq_true, Bool.and_eq_true,
    decide_eq_true_eq, strLtb_iff, Bool.not_eq_true', ← Bool.not_eq_true,
    pathLtb_iff, not_lt]

theorem skillLE_iff_key (a b : SkillMetadata) :
    skillLE a b ↔ skillKey a ≤ skillKey b := by
  rw [skillLE_iff, skillKey, skillKey, Prod.Lex.le_iff]
  simp only [Prod.Lex.le_iff]

instance : IsTrans SkillMetadata skillLE :=
  ⟨fun _ _ _ hab hbc => (skillLE_iff_key _ _).mpr
    (le_trans ((skillLE_iff_key _ _).mp hab) ((skillLE_iff_key _ _).mp hbc))⟩

instance : IsTotal SkillMetadata skillLE :=
  ⟨fun a b => by
    rcases le_total (skillKey a) (skillKey b) with h | h
    · exact Or.inl ((skillLE_iff_key _ _).mpr h)
    · exact Or.inr ((skillLE_iff_key _ _).mpr h)⟩

/-! Walk machinery: shapes of the primitive steps, preservation of the
bookkeeping invariant, and sufficiency of the canonical fuel. -/

theorem walk_loop_succ (env : Env) (root : SkillRoot) (fuel : Nat) (st : WalkState) :
    walk_loop env root (fuel + 1) st =
      match st.queue with
      | [] => some st
      | (dir, depth) :: rest =>
        let st1 := { st with queue := rest, trace := st.trace ++ [dir] }
        match env.read_dir dir with
        | none => walk_loop env root fuel st1
        | some entries =>
          walk_loop env root fuel (entries.foldl (process_entry env root depth) st1) :=
  rfl

theorem enqueue_dir_shape (st : WalkState) (p : FsPath) (d : Nat) :
    enqueue_dir st p d = st ∨
    enqueue_dir st p d = { st with truncated_by_dir_limit := true } ∨
    (enqueue_dir st p d =
        { st with visited := st.visited ++ [p], queue := st.queue ++ [(p, d)] } ∧
      st.visited.length < MAX_SKILLS_DIRS_PER_ROOT ∧ p ∉ st.visited ∧
      d ≤ MAX_SCAN_DEPTH) := by
  by_cases h1 : d > MAX_SCAN_DEPTH
  · left
    simp [enqueue_dir, h1]
  · by_cases h2 : MAX_SKILLS_DIRS_PER_ROOT ≤ st.visited.length
    · right; left
      simp [enqueue_dir, h1, h2]
    · by_cases h3 : p ∈ st.visited
      · left
        simp [enqueue_dir, h1, h2, h3]
      · right; right
        exact ⟨by simp [enqueue_dir, h1, h2, h3], by omega, h3, by omega⟩

theorem process_entry_shape (env : Env) (root : SkillRoot) (depth : Nat)
    (st : WalkState) (e : DirEntry) :
    process_entry env root depth st e = st ∨
    process_entry env root depth st e = { st with truncated_by_dir_limit := true } ∨
    (∃ p, process_entry env root depth st e =
        { st with visited := st.visited ++ [p], queue := st.queue ++ [(p, depth + 1)] } ∧
      st.visited.length < MAX_SKILLS_DIRS_PER_ROOT ∧ p ∉ st.visited) ∨
    (∃ s q, process_entry env root depth st e = { st with out := st.out ++ [s] } ∧
      parse_skill_file env q root.scope = .ok s) := by
  unfold process_entry
  cases e.file_name with
  | none => exact Or.inl rfl
  | some file_name =>
    by_cases hdot : startsWithDot file_name
    · simp only [hdot, if_true]
      exact Or.inl trivial
    · simp only [hdot, if_false]
      cases e.file_type with
      | none => exact Or.inl rfl
      | some ft =>
        by_cases hsym : ft.is_symlink
        · simp only [hsym, if_true]
          by_cases hfol : root.follow_symlinks
          · simp only [hfol, Bool.not_true, if_false]
            cases hstat : env.stat_is_dir e.path with
            | none => exact Or.inl rfl
            | some isd =>
              by_cases hisd : isd
              · simp only [hisd, if_true]
                cases hcan : env.canonicalize e.path with
                | none => exact Or.inl rfl
                | some rd =>
                  rcases enqueue_dir_shape st rd (depth + 1) with h | h | ⟨h, hlt, hmem, hle⟩
                  · exact Or.inl h
                  · exact Or.inr (Or.inl h)
                  · exact Or.inr (Or.inr (Or.inl ⟨rd, h, hlt, hmem⟩))
              · simp only [hisd, if_false]
                exact Or.inl rfl
          · simp only [hfol, Bool.not_false, if_true]
            exact Or.inl rfl
        · simp only [hsym, if_false]
          by_cases hdir : ft.is_dir
          · simp only [hdir, if_true]
            cases hcan : env.canonicalize e.path with
            | none => exact Or.inl rfl
            | some rd =>
              rcases enqueue_dir_shape st rd (depth + 1) with h | h | ⟨h, hlt, hmem, hle⟩
              · exact Or.inl h
              · exact Or.inr (Or.inl h)
              · exact Or.inr (Or.inr (Or.inl ⟨rd, h, hlt, hmem⟩))
          · simp only [hdir, if_false]
            by_cases hfile : (ft.is_file && file_name = SKILL_FILENAME) = true
            · simp only [hfile, if_true]
              cases hp : parse_skill_file env e.path root.scope with
              | ok skill => exact Or.inr (Or.inr (Or.inr ⟨skill, e.path, rfl, hp⟩))
              | error err => exact Or.inl rfl
            · simp only [hfile, if_false]
              exact Or.inl rfl

theorem process_entry_spec (env : Env) (root : SkillRoot) (depth : Nat)
    (st : WalkState) (e : DirEntry) :
    (process_entry env root depth st e).trace = st.trace ∧
    (∃ l, (process_entry env root depth st e).queue = st.queue ++ l) ∧
    (∃ l, (process_entry env root depth st e).visited = st.visited ++ l) ∧
    (∀ x ∈ (process_entry env root depth st e).out,
      x ∈ st.out ∨ ∃ q, parse_skill_file env q root.scope = .ok x) ∧
    (st.visited.length ≤ MAX_SKILLS_DIRS_PER_ROOT →
      (process_entry env root depth st e).visited.length ≤ MAX_SKILLS_DIRS_PER_ROOT ∧
      (process_entry env root depth st e).queue.length +
          (MAX_SKILLS_DIRS_PER_ROOT - (process_entry env root depth st e).visited.length) ≤
        st.queue.length + (MAX_SKILLS_DIRS_PER_ROOT - st.visited.length)) ∧
    (VisitInv st → VisitInv (process_entry env root depth st e)) := by
  rcases process_entry_shape env root depth st e with h | h | ⟨p, h, hlt, hmem⟩ | ⟨s, q, h, hq⟩ <;>
    rw [h]
  · exact ⟨rfl, ⟨[], by simp⟩, ⟨[], by simp⟩, fun x hx => Or.inl hx,
      fun hv => ⟨hv, le_refl _⟩, fun hi => hi⟩
  · exact ⟨rfl, ⟨[], by simp⟩, ⟨[], by simp⟩, fun x hx => Or.inl hx,
      fun hv => ⟨hv, le_refl _⟩, fun hi => hi⟩
  · refine ⟨rfl, ⟨[(p, depth + 1)], rfl⟩, ⟨[p], rfl⟩, fun x hx => Or.inl hx, ?_, ?_⟩
    · intro _
      constructor
      · simp only [List.length_append, List.length_singleton]
        omega
      · simp only [List.length_append, List.length_singleton]
        omega
    · rintro ⟨h1, h2, h3, h4⟩
      refine ⟨?_, ?_, ?_, ?_⟩
      · rw [List.nodup_append]
        refine ⟨h1, List.nodup_singleton p, ?_⟩
        intro a ha hb
        rw [List.mem_singleton] at hb
        subst hb
        exact hmem ha
      · simp only [List.map_append, List.map_cons, List.map_nil, ← List.append_assoc]
        rw [List.nodup_append]
        refine ⟨h2, List.nodup_singleton p, ?_⟩
        intro a ha hb
        rw [List.mem_singleton] at hb
        subst hb
        rcases List.mem_append.mp ha with h | h
        · exact hmem (h4 _ h)
        · rcases List.mem_map.mp h with ⟨pd, hpd, hfst⟩
          exact hmem (hfst ▸ h3 pd hpd)
      · intro pd hpd
        rcases List.mem_append.mp hpd with h | h
        · exact List.mem_append_left _ (h3 pd h)
        · rw [List.mem_singleton] at h
          subst h
          exact List.mem_append_right _ (List.mem_singleton_self p)
      · intro a ha
        exact List.mem_append_left _ (h4 a ha)
  · refine ⟨rfl, ⟨[], by simp⟩, ⟨[], by simp⟩, ?_, fun hv => ⟨hv, le_refl _⟩, fun hi => hi⟩
    intro x hx
    rcases List.mem_append.mp hx with h | h
    · exact Or.inl h
    · rw [List.mem_singleton] at h
      subst h
      exact Or.inr ⟨q, hq⟩

theorem foldl_process_spec (env : Env) (root : SkillRoot) (depth : Nat)
    (entries : List DirEntry) (st : WalkState) :
    (entries.foldl (process_entry env root depth) st).trace = st.trace ∧
    (∃ l, (entries.foldl (process_entry env root depth) st).queue = st.queue ++ l) ∧
    (∃ l, (entries.foldl (process_entry env root depth) st).visited = st.visited ++ l) ∧
    (∀ x ∈ (entries.foldl (process_entry env root depth) st).out,
      x ∈ st.out ∨ ∃ q, parse_skill_file env q root.scope = .ok x) ∧
    (st.visited.length ≤ MAX_SKILLS_DIRS_PER_ROOT →
      (entries.foldl (process_entry env root depth) st).visited.length ≤
        MAX_SKILLS_DIRS_PER_ROOT ∧
      (entries.foldl (process_entry env root depth) st).queue.length +
          (MAX_SKILLS_DIRS_PER_ROOT -
            (entries.foldl (process_entry env root depth) st).visited.length) ≤
        st.queue.length + (MAX_SKILLS_DIRS_PER_ROOT - st.visited.length)) ∧
    (VisitInv st → VisitInv (entries.foldl (process_entry env root depth) st)) := by
  induction entries generalizing st with
  | nil =>
    exact ⟨rfl, ⟨[], by simp⟩, ⟨[], by simp⟩, fun x hx => Or.inl hx,
      fun hv => ⟨hv, le_refl _⟩, fun hi => hi⟩
  | cons e es ih =>
    obtain ⟨t1, ⟨l1, q1⟩, ⟨m1, v1⟩, o1, b1, i1⟩ := process_entry_spec env root depth st e
    obtain ⟨t2, ⟨l2, q2⟩, ⟨m2, v2⟩, o2, b2, i2⟩ := ih (process_entry env root depth st e)
    rw [List.foldl_cons]
    refine ⟨t2.trans t1, ⟨l1 ++ l2, by rw [q2, q1, List.append_assoc]⟩,
      ⟨m1 ++ m2, by rw [v2, v1, List.append_assoc]⟩, ?_, ?_, fun hi => i2 (i1 hi)⟩
    · intro x hx
      rcases o2 x hx with h | h
      · exact o1 x h
      · exact Or.inr h
    · intro hv
      obtain ⟨hv1, hm1⟩ := b1 hv
      obtain ⟨hv2, hm2⟩ := b2 hv1
      exact ⟨hv2, le_trans hm2 hm1⟩

theorem VisitInv_pop (V : List FsPath) (O O' : List SkillMetadata) (fl fl' : Bool)
    (T : List FsPath) (dir : FsPath) (depth : Nat) (rest : List (FsPath × Nat))
    (hi : VisitInv ⟨(dir, depth) :: rest, V, O, fl, T⟩) :
    VisitInv ⟨rest, V, O', fl', T ++ [dir]⟩ := by
  obtain ⟨h1, h2, h3, h4⟩ := hi
  refine ⟨h1, ?_, ?_, ?_⟩
  · simp only [List.map_cons] at h2
    rw [List.append_cons] at h2
    exact h2
  · intro pd hpd
    exact h3 pd (List.mem_cons_of_mem _ hpd)
  · intro a ha
    rcases List.mem_append.mp ha with h | h
    · exact h4 a h
    · rw [List.mem_singleton] at h
      subst h
      exact h3 _ (List.mem_cons_self _ _)

theorem walk_loop_spec (env : Env) (root : SkillRoot) :
    ∀ (fuel : Nat) (st st' : WalkState), walk_loop env root fuel st = some st' →
    (∀ p ∈ st.trace, p ∈ st'.trace) ∧
    (∀ pd ∈ st.queue, pd.1 ∈ st'.trace) ∧
    (∀ x ∈ st'.out, x ∈ st.out ∨ ∃ q, parse_skill_file env q root.scope = .ok x) ∧
    (VisitInv st → VisitInv st') := by
  intro fuel
  induction fuel with
  | zero =>
    intro st st' h
    exact absurd h (by simp [walk_loop])
  | succ fuel ih =>
    intro st st' h
    obtain ⟨q, V, O, fl, T⟩ := st
    cases q with
    | nil =>
      rw [walk_loop_succ] at h
      simp only [Option.some.injEq] at h
      subst h
      exact ⟨fun p hp => hp, by simp, fun x hx => Or.inl hx, fun hi => hi⟩
    | cons hd rest =>
      obtain ⟨dir, depth⟩ := hd
      rw [walk_loop_succ] at h
      dsimp only at h
      cases hrd : env.read_dir dir with
      | none =>
        rw [hrd] at h
        obtain ⟨ht, hqd, ho, hv⟩ := ih _ st' h
        refine ⟨?_, ?_, ?_, ?_⟩
        · intro p hp
          exact ht p (List.mem_append_left _ hp)
        · intro pd hpd
          rcases List.mem_cons.mp hpd with hpd | hpd
          · subst hpd
            exact ht dir (List.mem_append_right _ (List.mem_singleton_self _))
          · exact hqd pd hpd
        · exact ho
        · intro hi
          exact hv (VisitInv_pop V O O fl fl T dir depth rest hi)
      | some entries =>
        rw [hrd] at h
        obtain ⟨t2, ⟨l2, q2⟩, _, o2, _, i2⟩ :=
          foldl_process_spec env root depth entries ⟨rest, V, O, fl, T ++ [dir]⟩
        obtain ⟨ht, hqd, ho, hv⟩ := ih _ st' h
        refine ⟨?_, ?_, ?_, ?_⟩
        · intro p hp
          refine ht p ?_
          rw [t2]
          exact List.mem_append_left _ hp
        · intro pd hpd
          rcases List.mem_cons.mp hpd with hpd | hpd
          · subst hpd
            refine ht dir ?_
            rw [t2]
            exact List.mem_append_right _ (List.mem_singleton_self _)
          · refine hqd pd ?_
            rw [q2]
            exact List.mem_append_left _ hpd
        · intro x hx
          rcases ho x hx with hx2 | hx2
          · exact o2 x hx2
          · exact Or.inr hx2
        · intro hi
          exact hv (i2 (VisitInv_pop V O O fl fl T dir depth rest hi))

theorem walk_loop_terminates (env : Env) (root : SkillRoot) :
    ∀ (fuel : Nat) (st : WalkState),
      st.visited.length ≤ MAX_SKILLS_DIRS_PER_ROOT →
      st.queue.length + (MAX_SKILLS_DIRS_PER_ROOT - st.visited.length) < fuel →
      ∃ st', walk_loop env root fuel st = some st' := by
  intro fuel
  induction fuel with
  | zero =>
    intro st hv hf
    omega
  | succ fuel ih =>
    intro st hv hf
    obtain ⟨q, V, O, fl, T⟩ := st
    cases q with
    | nil => exact ⟨_, by rw [walk_loop_succ]⟩
    | cons hd rest =>
      obtain ⟨dir, depth⟩ := hd
      rw [walk_loop_succ]
      dsimp only
      cases hrd : env.read_dir dir with
      | none =>
        apply ih
        · exact hv
        · simp only [List.length_cons] at hf
          simp only [List.length_cons]
          omega
      | some entries =>
        obtain ⟨_, _, _, _, b2, _⟩ :=
          foldl_process_spec env root depth entries ⟨rest, V, O, fl, T ++ [dir]⟩
        obtain ⟨hv2, hm2⟩ := b2 hv
        apply ih
        · exact hv2
        · simp only [List.length_cons] at hf
          simp only [List.length_cons] at hm2
          omega

/-- Claim C3: for every root and every filesystem state — symlink cycles
included, since `Env` places no constraint on where `canonicalize` and
`read_dir` point — the per-root walk of `discover_skills_under_root`
started on its initial state terminates (the canonical fuel is never
exhausted, so the `while` loop finishes), and each canonical directory
path is processed at most once (the ghost trace of popped directories
has no duplicates) and sits in the visited set at most once. -/
theorem walk_terminates_and_visits_each_dir_once (env : Env) (root : SkillRoot)
    (root_dir : FsPath) (out : List SkillMetadata) :
    ∃ st', walk_loop env root WALK_FUEL
        ⟨[(root_dir, 0)], [root_dir], out, false, []⟩ = some st' ∧
      st'.trace.Nodup ∧ st'.visited.Nodup := by
  obtain ⟨st', h⟩ := walk_loop_terminates env root WALK_FUEL
    ⟨[(root_dir, 0)], [root_dir], out, false, []⟩
    (by simp [MAX_SKILLS_DIRS_PER_ROOT])
    (by simp [WALK_FUEL, MAX_SKILLS_DIRS_PER_ROOT])
  obtain ⟨_, _, _, hv⟩ := walk_loop_spec env root WALK_FUEL _ st' h
  have hinv : VisitInv ⟨[(root_dir, 0)], [root_dir], out, false, []⟩ := by
    refine ⟨List.nodup_singleton _, by simp, ?_, by simp⟩
    intro pd hpd
    rw [List.mem_singleton] at hpd
    subst hpd
    exact List.mem_singleton_self _
  obtain ⟨h1, h2, _, _⟩ := hv hinv
  exact ⟨st', h, h2.of_append_left, h1⟩

/-- Claim C4: a directory is enqueued only when its depth is within
`MAX_SCAN_DEPTH` and the visited set is strictly below
`MAX_SKILLS_DIRS_PER_ROOT`; once the cap is reached further directories
are dropped with only the truncation flag set; every directory that did
make it into the queue is still popped and processed; and concretely, on
a chain of directories `r/d1/…/d7`, the `SKILL.md` housed in the
directory at depth 6 is returned while the one housed at depth 7 is
not. -/
theorem enqueue_guards_and_depth_cap :
    (∀ (st : WalkState) (p : FsPath) (d : Nat), MAX_SCAN_DEPTH < d →
      enqueue_dir st p d = st) ∧
    (∀ (st : WalkState) (p : FsPath) (d : Nat), d ≤ MAX_SCAN_DEPTH →
      MAX_SKILLS_DIRS_PER_ROOT ≤ st.visited.length →
      enqueue_dir st p d = { st with truncated_by_dir_limit := true }) ∧
    (∀ (st : WalkState) (p : FsPath) (d : Nat), d ≤ MAX_SCAN_DEPTH →
      st.visited.length < MAX_SKILLS_DIRS_PER_ROOT → p ∉ st.visited →
      enqueue_dir st p d =
        { st with visited := st.visited ++ [p], queue := st.queue ++ [(p, d)] }) ∧
    (∀ (env : Env) (root : SkillRoot) (fuel : Nat) (st st' : WalkState),
      walk_loop env root fuel st = some st' → ∀ pd ∈ st.queue, pd.1 ∈ st'.trace) ∧
    discover_skills_under_root chainEnv ⟨["r"], SkillScope.Repo, true⟩ [] =
      [⟨"a", "b", none, none, ["r", "d1", "d2", "d3", "d4", "d5", "d6", "SKILL.md"],
        SkillScope.Repo⟩] := by
  refine ⟨?_, ?_, ?_, ?_, by decide⟩
  · intro st p d hd
    simp [enqueue_dir, hd]
  · intro st p d hd hcap
    have hd2 : ¬ d > MAX_SCAN_DEPTH := by omega
    simp [enqueue_dir, hd2, hcap]
  · intro st p d hd hcap hmem
    have hd2 : ¬ d > MAX_SCAN_DEPTH := by omega
    have hcap2 : ¬ MAX_SKILLS_DIRS_PER_ROOT ≤ st.visited.length := by omega
    simp [enqueue_dir, hd2, hcap2, hmem]
  · intro env root fuel st st' h
    exact (walk_loop_spec env root fuel st st' h).2.1

/-! Aggregation: the dedup pass keeps exactly the first occurrence of
each canonical path, and the sort arranges the survivors. -/

theorem dedup_by_path_spec :
    ∀ (l : List SkillMetadata) (seen : List FsPath),
      (∀ s ∈ dedup_by_path l seen,
        s ∈ l ∧ s.path ∉ seen ∧ l.find? (fun t => t.path == s.path) = some s) ∧
      ((dedup_by_path l seen).map (fun s => s.path)).Nodup ∧
      (∀ t ∈ l, t.path ∈ seen ∨ ∃ s ∈ dedup_by_path l seen, s.path = t.path)
  | [], seen => by simp [dedup_by_path]
  | x :: rest, seen => by
    by_cases hx : x.path ∈ seen
    · obtain ⟨ih1, ih2, ih3⟩ := dedup_by_path_spec rest seen
      simp only [dedup_by_path, if_pos hx]
      refine ⟨?_, ih2, ?_⟩
      · intro s hs
        obtain ⟨hmem, hseen, hfind⟩ := ih1 s hs
        refine ⟨List.mem_cons_of_mem _ hmem, hseen, ?_⟩
        rw [List.find?_cons_of_neg, hfind]
        simp only [beq_iff_eq]
        intro h
        exact hseen (h ▸ hx)
      · intro t ht
        rcases List.mem_cons.mp ht with rfl | ht
        · exact Or.inl hx
        · rcases ih3 t ht with h | ⟨s, hs, hp⟩
          · exact Or.inl h
          · exact Or.inr ⟨s, hs, hp⟩
    · obtain ⟨ih1, ih2, ih3⟩ := dedup_by_path_spec rest (seen ++ [x.path])
      simp only [dedup_by_path, if_neg hx]
      refine ⟨?_, ?_, ?_⟩
      · intro s hs
        rcases List.mem_cons.mp hs with rfl | hs
        · refine ⟨List.mem_cons_self _ _, hx, ?_⟩
          rw [List.find?_cons_of_pos]
          simp
        · obtain ⟨hmem, hseen, hfind⟩ := ih1 s hs
          have hne : s.path ≠ x.path := by
            intro h
            exact hseen (List.mem_append_right _ (h ▸ List.mem_singleton_self _))
          refine ⟨List.mem_cons_of_mem _ hmem,
            fun h => hseen (List.mem_append_left _ h), ?_⟩
          rw [List.find?_cons_of_neg, hfind]
          simp only [beq_iff_eq]
          exact fun h => hne h.symm
      · rw [List.map_cons, List.nodup_cons]
        refine ⟨?_, ih2⟩
        intro hmem
        rcases List.mem_map.mp hmem with ⟨s, hs, hp⟩
        obtain ⟨_, hseen, _⟩ := ih1 s hs
        exact hseen (List.mem_append_right _ (hp ▸ List.mem_singleton_self _))
      · intro t ht
        rcases List.mem_cons.mp ht with rfl | ht
        · exact Or.inr ⟨t, List.mem_cons_self _ _, rfl⟩
        · rcases ih3 t ht with h | ⟨s, hs, hp⟩
          · rcases List.mem_append.mp h with h | h
            · exact Or.inl h
            · rw [List.mem_singleton] at h
              exact Or.inr ⟨x, List.mem_cons_self _ _, h.symm⟩
          · exact Or.inr ⟨s, List.mem_cons_of_mem _ hs, hp⟩

theorem mem_load_skills_iff (env : Env) (cwd : FsPath) (s : SkillMetadata) :
    s ∈ load_skills env cwd ↔ s ∈ dedup_by_path (raw_skills env cwd) [] :=
  (List.perm_insertionSort skillLE _).mem_iff

theorem load_skills_paths_nodup (env : Env) (cwd : FsPath) :
    ((load_skills env cwd).map (fun s => s.path)).Nodup := by
  have hperm : List.Perm ((load_skills env cwd).map (fun s => s.path))
      ((dedup_by_path (raw_skills env cwd) []).map (fun s => s.path)) :=
    (List.perm_insertionSort skillLE _).map _
  exact hperm.nodup_iff.mpr (dedup_by_path_spec (raw_skills env cwd) []).2.1

/-- Claim C1: `load_skills` keeps at most one entry per canonical path;
the entry kept for a path is exactly the first occurrence in the raw
root-emission-order list (so when one canonical path is discovered under
several roots, the earliest-scanned root's occurrence wins), and every
discovered path is still represented, so only later duplicates are
discarded. -/
theorem load_skills_dedup_by_first_occurrence (env : Env) (cwd : FsPath) :
    ((load_skills env cwd).map (fun s => s.path)).Nodup ∧
    (∀ s ∈ load_skills env cwd,
      (raw_skills env cwd).find? (fun t => t.path == s.path) = some s) ∧
    (∀ t ∈ raw_skills env cwd, ∃ s ∈ load_skills env cwd, s.path = t.path) := by
  refine ⟨load_skills_paths_nodup env cwd, ?_, ?_⟩
  · intro s hs
    exact ((dedup_by_path_spec (raw_skills env cwd) []).1 s
      ((mem_load_skills_iff env cwd s).mp hs)).2.2
  · intro t ht
    rcases (dedup_by_path_spec (raw_skills env cwd) []).2.2 t ht with h | ⟨s, hs, hp⟩
    · simp at h
    · exact ⟨s, (mem_load_skills_iff env cwd s).mpr hs, hp⟩

/-- Claim C2: in the list `load_skills` returns, every adjacent pair has
non-decreasing scope rank (Repo = 0, User = 1, System = 2, Admin = 3);
within one rank, names are non-decreasing; and at equal rank and name,
canonical paths strictly increase (they are unique after dedup), so the
output order is total and deterministic. -/
theorem load_skills_sorted (env : Env) (cwd : FsPath) :
    (load_skills env cwd).Chain' (fun a b =>
      scope_rank a.scope ≤ scope_rank b.scope ∧
      (scope_rank a.scope = scope_rank b.scope → a.name ≤ b.name) ∧
      (scope_rank a.scope = scope_rank b.scope → a.name = b.name →
        a.path < b.path)) := by
  have hsorted : List.Pairwise skillLE (load_skills env cwd) :=
    List.sorted_insertionSort skillLE _
  have hne : (load_skills env cwd).Pairwise (fun a b => a.path ≠ b.path) := by
    have h := load_skills_paths_nodup env cwd
    rw [List.Nodup, List.pairwise_map] at h
    exact h
  refine List.Pairwise.chain' ((hsorted.and hne).imp ?_)
  rintro a b ⟨hle, hnep⟩
  rw [skillLE_iff] at hle
  refine ⟨?_, ?_, ?_⟩
  · rcases hle with h | ⟨h, _⟩
    · exact le_of_lt h
    · exact le_of_eq h
  · intro hr
    rcases hle with h | ⟨_, h | ⟨h, _⟩⟩
    · exact absurd h (by omega)
    · exact le_of_lt h
    · exact le_of_eq h
  · intro hr hn
    rcases hle with h | ⟨_, h | ⟨_, h⟩⟩
    · exact absurd h (by omega)
    · exact absurd h (by rw [hn]; exact lt_irrefl _)
    · exact lt_of_le_of_ne h hnep

/-! Front-matter extraction: failure and success characterised. -/

theorem collectFrontmatter_eq_none_iff :
    ∀ (ls : List String) (acc : String),
      collectFrontmatter ls acc = none ↔ ∀ l ∈ ls, trimEndCR l ≠ "---"
  | [], acc => by simp [collectFrontmatter]
  | l :: ls, acc => by
    by_cases h : trimEndCR l = "---"
    · simp only [collectFrontmatter, if_pos h]
      constructor
      · intro hnone
        exact absurd hnone (by simp)
      · intro hall
        exact absurd h (hall l (List.mem_cons_self _ _))
    · simp only [collectFrontmatter, if_neg h]
      rw [collectFrontmatter_eq_none_iff ls]
      constructor
      · intro hall l' hl'
        rcases List.mem_cons.mp hl' with rfl | hl'
        · exact h
        · exact hall l' hl'
      · intro hall l' hl'
        exact hall l' (List.mem_cons_of_mem _ hl')

theorem collectFrontmatter_eq_some :
    ∀ (ls : List String) (acc : String), (∃ l ∈ ls, trimEndCR l = "---") →
      collectFrontmatter ls acc =
        some (acc ++ joinLines ((ls.takeWhile (fun l => !(trimEndCR l == "---"))).map
          (fun l => trimEndCR l ++ "\n")))
  | [], acc, h => by simp at h
  | l :: ls, acc, h => by
    by_cases hl : trimEndCR l = "---"
    · simp only [collectFrontmatter, if_pos hl, List.takeWhile_cons]
      rw [show (!(trimEndCR l == "---")) = false by simp [hl]]
      simp [joinLines]
    · have h' : ∃ l' ∈ ls, trimEndCR l' = "---" := by
        rcases h with ⟨l', hm, he⟩
        rcases List.mem_cons.mp hm with rfl | hm
        · exact absurd he hl
        · exact ⟨l', hm, he⟩
      simp only [collectFrontmatter, if_neg hl, List.takeWhile_cons]
      rw [show (!(trimEndCR l == "---")) = true by simp [hl]]
      rw [collectFrontmatter_eq_some ls (acc ++ trimEndCR l ++ "\n") h']
      simp only [if_true, List.map_cons, joinLines]
      rw [String.append_assoc, String.append_assoc, String.append_assoc]

theorem extract_frontmatter_none_iff (contents : String) :
    extract_frontmatter contents = none ↔
      ((rustLines contents).head?.map trimEndCR ≠ some "---" ∨
        ∀ l ∈ (rustLines contents).tail, trimEndCR l ≠ "---") := by
  rcases hl : rustLines contents with _ | ⟨first, rest⟩
  · simp [extract_frontmatter, hl]
  · simp only [extract_frontmatter, hl, List.head?_cons, List.tail_cons]
    by_cases hf : trimEndCR first = "---"
    · rw [if_pos hf, collectFrontmatter_eq_none_iff]
      simp [hf]
    · rw [if_neg hf]
      simp [hf]

theorem extract_frontmatter_span (contents : String) (first : String)
    (rest : List String) (hl : rustLines contents = first :: rest)
    (hfirst : trimEndCR first = "---")
    (hclose : ∃ l ∈ rest, trimEndCR l = "---") :
    extract_frontmatter contents =
      some (joinLines ((rest.takeWhile (fun l => !(trimEndCR l == "---"))).map
        (fun l => trimEndCR l ++ "\n"))) := by
  simp only [extract_frontmatter, hl, if_pos hfirst]
  rw [collectFrontmatter_eq_some rest "" hclose, String.empty_append]

/-- Claim C5: with the file readable, `parse_skill_file` fails with
`MissingFrontmatter` exactly when the first line (carriage returns
stripped from its end) is not `---`, or no later line (likewise
stripped) equals `---`; and when both delimiters exist, the extracted
block is the span of lines strictly between them, each stripped of
trailing carriage returns, each followed by a newline. -/
theorem parse_missing_frontmatter_iff (env : Env) (path : FsPath) (scope : SkillScope)
    (contents : String) (hread : env.read_to_string path = some contents) :
    (parse_skill_file env path scope = .error .MissingFrontmatter ↔
      ((rustLines contents).head?.map trimEndCR ≠ some "---" ∨
        ∀ l ∈ (rustLines contents).tail, trimEndCR l ≠ "---")) ∧
    (∀ (first : String) (rest : List String), rustLines contents = first :: rest →
      trimEndCR first = "---" → (∃ l ∈ rest, trimEndCR l = "---") →
      extract_frontmatter contents =
        some (joinLines ((rest.takeWhile (fun l => !(trimEndCR l == "---"))).map
          (fun l => trimEndCR l ++ "\n")))) := by
  refine ⟨?_, fun first rest hl hf hc => extract_frontmatter_span contents first rest hl hf hc⟩
  rw [← extract_frontmatter_none_iff]
  rcases hfm : extract_frontmatter contents with _ | fm
  · simp [parse_skill_file, hread, hfm]
  · simp only [parse_skill_file, hread, hfm]
    rcases hy : env.yaml_parse_skill fm with e | parsed
    · simp
    · by_cases hn : (rustTrim parsed.name == "") = true
      · simp [hn]
      · by_cases hd : (rustTrim parsed.description == "") = true
        · simp [hn, hd]
        · simp [hn, hd]

/-- Claim C7: once the file is read, the front matter extracted and the
YAML deserialised, `parse_skill_file` reports `MissingField "name"`
exactly when the name trims to empty, `MissingField "description"`
exactly when the name survives but the description trims to empty, and
otherwise succeeds with the trimmed name and description (and the
trimmed, empty-filtered optional short description). -/
theorem parse_field_validation (env : Env) (path : FsPath) (scope : SkillScope)
    (contents fm : String) (parsed : SkillFrontmatter)
    (h1 : env.read_to_string path = some contents)
    (h2 : extract_frontmatter contents = some fm)
    (h3 : env.yaml_parse_skill fm = .ok parsed) :
    (parse_skill_file env path scope = .error (.MissingField "name") ↔
      rustTrim parsed.name = "") ∧
    (parse_skill_file env path scope = .error (.MissingField "description") ↔
      (rustTrim parsed.name ≠ "" ∧ rustTrim parsed.description = "")) ∧
    (rustTrim parsed.name ≠ "" → rustTrim parsed.description ≠ "" →
      parse_skill_file env path scope = .ok
        { name := rustTrim parsed.name
          description := rustTrim parsed.description
          short_description := trimNonEmpty parsed.metadata.short_description
          interface := load_skill_interface env path
          path := (env.canonicalize path).getD path
          scope := scope }) := by
  by_cases hn : rustTrim parsed.name = ""
  · refine ⟨by simp [parse_skill_file, h1, h2, h3, hn], ?_, ?_⟩
    · simp [parse_skill_file, h1, h2, h3, hn]
    · intro hn2 _
      exact absurd hn hn2
  · by_cases hd : rustTrim parsed.description = ""
    · refine ⟨?_, ?_, ?_⟩
      · simp [parse_skill_file, h1, h2, h3, hn, hd]
      · simp [parse_skill_file, h1, h2, h3, hn, hd]
      · intro _ hd2
        exact absurd hd hd2
    · refine ⟨?_, ?_, ?_⟩
      · simp [parse_skill_file, h1, h2, h3, hn, hd]
      · simp [parse_skill_file, h1, h2, h3, hn, hd]
      · intro _ _
        simp [parse_skill_file, h1, h2, h3, hn, hd]

/-- Witness for the front-matter claim: on a file with no leading
delimiter the parser reports `MissingFrontmatter`. -/
theorem parse_missing_frontmatter_iff_witness :
    parse_skill_file demoEnv ["plain"] SkillScope.User =
      .error .MissingFrontmatter := by
  have h := parse_missing_frontmatter_iff demoEnv ["plain"] SkillScope.User
    "plain text" (by decide)
  exact h.1.mpr (by decide)

/-- Witness for the field-validation claim: a well-formed skill file
parses to its trimmed metadata. -/
theorem parse_field_validation_witness :
    parse_skill_file demoEnv ["skill", "SKILL.md"] SkillScope.User = .ok
      { name := rustTrim "a", description := rustTrim "b",
        short_description := trimNonEmpty none,
        interface := load_skill_interface demoEnv ["skill", "SKILL.md"],
        path := (demoEnv.canonicalize ["skill", "SKILL.md"]).getD ["skill", "SKILL.md"],
        scope := SkillScope.User } :=
  (parse_field_validation demoEnv ["skill", "SKILL.md"] SkillScope.User skillContent
    skillYaml ⟨"a", "b", ⟨none⟩⟩ (by decide) (by decide) rfl).2.2
    (by decide) (by decide)

/-- Claim C10: a directory entry whose file name is missing or not valid
UTF-8, or whose file-type query failed, leaves the walk state untouched —
nothing is enqueued and no definition-file candidate is recorded — and
the entry fold continues with the remaining entries. -/
theorem skip_nameless_or_typeless_entries (env : Env) (root : SkillRoot) (depth : Nat)
    (st : WalkState) (e : DirEntry) :
    (e.file_name = none → process_entry env root depth st e = st) ∧
    (e.file_type = none → process_entry env root depth st e = st) ∧
    (∀ es : List DirEntry, e.file_name = none ∨ e.file_type = none →
      (e :: es).foldl (process_entry env root depth) st =
        es.foldl (process_entry env root depth) st) := by
  have h1 : e.file_name = none → process_entry env root depth st e = st := by
    intro h
    simp [process_entry, h]
  have h2 : e.file_type = none → process_entry env root depth st e = st := by
    intro h
    rcases hfn : e.file_name with _ | name
    · simp [process_entry, hfn]
    · by_cases hdot : startsWithDot name
      · simp [process_entry, hfn, hdot]
      · simp [process_entry, hfn, hdot, h]
  refine ⟨h1, h2, ?_⟩
  intro es hcase
  rw [List.foldl_cons]
  rcases hcase with h | h
  · rw [h1 h]
  · rw [h2 h]

/-- Claim C8: the overlay loader yields no overlay when the sibling
descriptor is absent, unreadable or structurally invalid; a present and
valid descriptor is reduced to its trimmed, empty-discarded `interface`
fields, with no overlay at all when both are discarded; and the failure
conditions of `parse_skill_file` never involve the overlay, so the
overlay can never fail the skill parse. -/
theorem load_skill_interface_spec (env : Env) (sp skill_dir : FsPath)
    (hpar : parentDir sp = some skill_dir) :
    (env.path_exists (skill_dir ++ ["agents", "openai.yaml"]) = false →
      load_skill_interface env sp = none) ∧
    (env.read_to_string (skill_dir ++ ["agents", "openai.yaml"]) = none →
      load_skill_interface env sp = none) ∧
    (∀ (contents e : String),
      env.read_to_string (skill_dir ++ ["agents", "openai.yaml"]) = some contents →
      env.yaml_parse_metadata_file contents = .error e →
      load_skill_interface env sp = none) ∧
    (∀ (contents : String) (parsed : SkillMetadataFile),
      env.read_to_string (skill_dir ++ ["agents", "openai.yaml"]) = some contents →
      env.yaml_parse_metadata_file contents = .ok parsed →
      parsed.interface = none →
      load_skill_interface env sp = none) ∧
    (∀ (contents : String) (parsed : SkillMetadataFile) (itf : SkillInterfaceFile),
      env.path_exists (skill_dir ++ ["agents", "openai.yaml"]) = true →
      env.read_to_string (skill_dir ++ ["agents", "openai.yaml"]) = some contents →
      env.yaml_parse_metadata_file contents = .ok parsed →
      parsed.interface = some itf →
      load_skill_interface env sp =
        (if ((itf.display_name.map rustTrim).filter (fun t => decide (t ≠ "")) = none ∧
            (itf.short_description.map rustTrim).filter (fun t => decide (t ≠ "")) = none)
          then none
          else some ⟨(itf.display_name.map rustTrim).filter (fun t => decide (t ≠ "")),
            (itf.short_description.map rustTrim).filter (fun t => decide (t ≠ ""))⟩)) ∧
    (∀ scope : SkillScope, (∃ e, parse_skill_file env sp scope = .error e) ↔
      (env.read_to_string sp = none ∨
        ∃ contents, env.read_to_string sp = some contents ∧
          (extract_frontmatter contents = none ∨
            ∃ fm, extract_frontmatter contents = some fm ∧
              ((∃ msg, env.yaml_parse_skill fm = .error msg) ∨
                ∃ parsed, env.yaml_parse_skill fm = .ok parsed ∧
                  (rustTrim parsed.name = "" ∨ rustTrim parsed.description = ""))))) := by
  have hfun : (fun t : String => !(t == "")) = (fun t : String => decide (t ≠ "")) := by
    funext t
    by_cases h : t = "" <;> simp [h]
  refine ⟨?_, ?_, ?_, ?_, ?_, ?_⟩
  · intro habs
    simp [load_skill_interface, hpar, habs]
  · intro hread
    by_cases habs : env.path_exists (skill_dir ++ ["agents", "openai.yaml"])
    · simp [load_skill_interface, hpar, habs, hread]
    · simp [load_skill_interface, hpar, habs]
  · intro contents e hread hyaml
    by_cases habs : env.path_exists (skill_dir ++ ["agents", "openai.yaml"])
    · simp [load_skill_interface, hpar, habs, hread, hyaml]
    · simp [load_skill_interface, hpar, habs]
  · intro contents parsed hread hyaml hitf
    by_cases habs : env.path_exists (skill_dir ++ ["agents", "openai.yaml"])
    · simp [load_skill_interface, hpar, habs, hread, hyaml, hitf]
    · simp [load_skill_interface, hpar, habs]
  · intro contents parsed itf habs hread hyaml hitf
    simp only [load_skill_interface, hpar, habs, Bool.not_true, Bool.false_eq_true,
      if_false, hread, hyaml, hitf, trimNonEmpty, hfun]
  · intro scope
    rcases hr : env.read_to_string sp with _ | contents
    · simp [parse_skill_file, hr]
    · rcases hfm : extract_frontmatter contents with _ | fm
      · simp [parse_skill_file, hr, hfm]
      · rcases hy : env.yaml_parse_skill fm with msg | parsed
        · simp [parse_skill_file, hr, hfm, hy]
        · by_cases hn : rustTrim parsed.name = ""
          · simp [parse_skill_file, hr, hfm, hy, hn]
          · by_cases hd : rustTrim parsed.description = ""
            · simp [parse_skill_file, hr, hfm, hy, hn, hd]
            · simp [parse_skill_file, hr, hfm, hy, hn, hd]

/-- Witness for the overlay claim: a descriptor with a padded display
name and a whitespace-only short description keeps the trimmed display
name and drops the short description. -/
theorem load_skill_interface_spec_witness :
    load_skill_interface demoEnv ["over", "SKILL.md"] =
      (if (((some " A Tool ").map rustTrim).filter (fun t => decide (t ≠ "")) = none ∧
          ((some " ").map rustTrim).filter (fun t => decide (t ≠ "")) = none)
        then none
        else some ⟨((some " A Tool ").map rustTrim).filter (fun t => decide (t ≠ "")),
          ((some " ").map rustTrim).filter (fun t => decide (t ≠ ""))⟩) :=
  ((load_skill_interface_spec demoEnv ["over", "SKILL.md"] ["over"] rfl).2.2.2.2.1)
    "iface" ⟨some ⟨some " A Tool ", some " "⟩⟩ ⟨some " A Tool ", some " "⟩
    (by decide) (by decide) rfl rfl

/-! Trimming produces trimmed strings: idempotence of `rustTrim` and the
invariants it gives every parsed skill. -/

theorem dropWhile_dropWhile (p : α → Bool) (l : List α) :
    (l.dropWhile p).dropWhile p = l.dropWhile p := by
  induction l with
  | nil => rfl
  | cons c cs ih =>
    by_cases h : p c
    · rw [List.dropWhile_cons_of_pos h, ih]
    · rw [List.dropWhile_cons_of_neg h, List.dropWhile_cons_of_neg h]

theorem trim_chars_idem (l : List Char) :
    (((((((l.dropWhile Char.isWhitespace).reverse.dropWhile
        Char.isWhitespace).reverse).dropWhile Char.isWhitespace).reverse).dropWhile
        Char.isWhitespace).reverse) =
      (((l.dropWhile Char.isWhitespace).reverse.dropWhile
        Char.isWhitespace).reverse) := by
  set ws := Char.isWhitespace
  set A := l.dropWhile ws with hA
  set t := (A.reverse.dropWhile ws).reverse with htdef
  have hpre : t <+: A := by
    have h := (List.dropWhile_suffix (l := A.reverse) ws).reverse
    rwa [List.reverse_reverse] at h
  have ht : t.dropWhile ws = t := by
    rcases htc : t with _ | ⟨c, t'⟩
    · rfl
    · obtain ⟨r, hr⟩ := hpre
      have hAc : A = c :: (t' ++ r) := by
        rw [← hr, htc]
        simp
      have hws := List.head?_dropWhile_not ws l
      rw [← hA, hAc] at hws
      simp only [List.head?_cons] at hws
      rw [List.dropWhile_cons_of_neg (by simp [hws])]
  have ht2 : t.reverse.dropWhile ws = t.reverse := by
    rw [htdef, List.reverse_reverse]
    exact dropWhile_dropWhile ws A.reverse
  calc ((t.dropWhile ws).reverse.dropWhile ws).reverse
      = (t.reverse.dropWhile ws).reverse := by rw [ht]
    _ = t.reverse.reverse := by rw [ht2]
    _ = t := List.reverse_reverse t

theorem rustTrim_idem (s : String) : rustTrim (rustTrim s) = rustTrim s :=
  congrArg String.mk (trim_chars_idem s.data)

theorem IsTrimmedNonempty_rustTrim {x : String} (h : rustTrim x ≠ "") :
    IsTrimmedNonempty (rustTrim x) :=
  ⟨h, rustTrim_idem x⟩

theorem trimNonEmpty_some {o : Option String} {v : String}
    (h : trimNonEmpty o = some v) : IsTrimmedNonempty v := by
  rcases o with _ | u
  · exact absurd h (by simp [trimNonEmpty])
  · by_cases hu : rustTrim u = ""
    · exact absurd h (by simp [trimNonEmpty, Option.filter, hu])
    · have : trimNonEmpty (some u) = some (rustTrim u) := by
        simp [trimNonEmpty, Option.filter, hu]
      rw [this, Option.some.injEq] at h
      subst h
      exact IsTrimmedNonempty_rustTrim hu

theorem load_skill_interface_fields (env : Env) (p : FsPath)
    (itf : SkillInterface) (h : load_skill_interface env p = some itf) :
    (∀ v, itf.display_name = some v → IsTrimmedNonempty v) ∧
    (∀ v, itf.short_description = some v → IsTrimmedNonempty v) := by
  rcases hpar : parentDir p with _ | skill_dir
  · exact absurd h (by simp [load_skill_interface, hpar])
  · rw [load_skill_interface, hpar] at h
    dsimp only at h
    by_cases habs : env.path_exists (skill_dir ++ ["agents", "openai.yaml"])
    · rw [if_neg (by simp [habs])] at h
      rcases hread : env.read_to_string (skill_dir ++ ["agents", "openai.yaml"])
        with _ | contents
      · simp only [hread] at h
        exact absurd h (by simp)
      · simp only [hread] at h
        rcases hyaml : env.yaml_parse_metadata_file contents with e | parsed
        · simp only [hyaml] at h
          exact absurd h (by simp)
        · simp only [hyaml] at h
          rcases hitf : parsed.interface with _ | itf0
          · simp only [hitf] at h
            exact absurd h (by simp)
          · simp only [hitf] at h
            by_cases hboth : trimNonEmpty itf0.display_name = none ∧
                trimNonEmpty itf0.short_description = none
            · rw [if_pos hboth] at h
              exact absurd h (by simp)
            · rw [if_neg hboth, Option.some.injEq] at h
              subst h
              constructor
              · intro v hv
                exact trimNonEmpty_some hv
              · intro v hv
                exact trimNonEmpty_some hv
    · rw [if_pos (by simp [habs])] at h
      exact absurd h (by simp)

theorem parse_ok_invariant (env : Env) (q : FsPath) (scope : SkillScope)
    (s : SkillMetadata) (h : parse_skill_file env q scope = .ok s) :
    IsTrimmedNonempty s.name ∧ IsTrimmedNonempty s.description ∧
    (∀ v, s.short_description = some v → IsTrimmedNonempty v) ∧
    (∀ itf, s.interface = some itf →
      (∀ v, itf.display_name = some v → IsTrimmedNonempty v) ∧
      (∀ v, itf.short_description = some v → IsTrimmedNonempty v)) := by
  rw [parse_skill_file] at h
  rcases hr : env.read_to_string q with _ | contents
  · simp only [hr] at h
    exact absurd h (by simp)
  · simp only [hr] at h
    rcases hfm : extract_frontmatter contents with _ | fm
    · simp only [hfm] at h
      exact absurd h (by simp)
    · simp only [hfm] at h
      rcases hy : env.yaml_parse_skill fm with e | parsed
      · simp only [hy] at h
        exact absurd h (by simp)
      · simp only [hy] at h
        by_cases hn : rustTrim parsed.name = ""
        · rw [if_pos (by simp [hn])] at h
          exact absurd h (by simp)
        · rw [if_neg (by simp [hn])] at h
          by_cases hd : rustTrim parsed.description = ""
          · rw [if_pos (by simp [hd])] at h
            exact absurd h (by simp)
          · rw [if_neg (by simp [hd]), Except.ok.injEq] at h
            subst h
            refine ⟨IsTrimmedNonempty_rustTrim hn, IsTrimmedNonempty_rustTrim hd, ?_, ?_⟩
            · intro v hv
              exact trimNonEmpty_some hv
            · intro itf hitf
              exact load_skill_interface_fields env q itf hitf

theorem discover_out_mem (env : Env) (root : SkillRoot)
    (out : List SkillMetadata) (x : SkillMetadata)
    (hx : x ∈ discover_skills_under_root env root out) :
    x ∈ out ∨ ∃ q, parse_skill_file env q root.scope = .ok x := by
  rw [discover_skills_under_root] at hx
  rcases hc : env.canonicalize root.path with _ | root_dir
  · simp only [hc] at hx
    exact Or.inl hx
  · simp only [hc] at hx
    by_cases hd : env.is_dir root_dir
    · rw [if_neg (by simp [hd])] at hx
      rcases hw : walk_loop env root WALK_FUEL
          ⟨[(root_dir, 0)], [root_dir], out, false, []⟩ with _ | st
      · simp only [hw] at hx
        exact Or.inl hx
      · simp only [hw] at hx
        exact (walk_loop_spec env root WALK_FUEL _ st hw).2.2.1 x hx
    · rw [if_pos (by simp [hd])] at hx
      exact Or.inl hx

theorem raw_skills_mem (env : Env) (cwd : FsPath) (x : SkillMetadata)
    (hx : x ∈ raw_skills env cwd) :
    ∃ q scope, parse_skill_file env q scope = .ok x := by
  rw [raw_skills] at hx
  have main : ∀ (roots : List SkillRoot) (acc : List SkillMetadata),
      x ∈ roots.foldl (fun out root => discover_skills_under_root env root out) acc →
      x ∈ acc ∨ ∃ q scope, parse_skill_file env q scope = .ok x := by
    intro roots
    induction roots with
    | nil =>
      intro acc h
      exact Or.inl h
    | cons r rs ih =>
      intro acc h
      rw [List.foldl_cons] at h
      rcases ih _ h with h2 | h2
      · rcases discover_out_mem env r acc x h2 with h3 | ⟨q, h3⟩
        · exact Or.inl h3
        · exact Or.inr ⟨q, r.scope, h3⟩
      · exact Or.inr h2
  rcases main _ [] hx with h | h
  · exact absurd h (by simp)
  · exact h

/-- Claim C9: every skill `load_skills` returns carries a non-empty,
already-trimmed name and description; its optional short description and
overlay fields, when present, are non-empty and trimmed as well; and
consequently `display_name` and `display_description` never produce an
empty or whitespace-padded string. -/
theorem load_skills_fields_trimmed (env : Env) (cwd : FsPath) :
    ∀ s ∈ load_skills env cwd,
      IsTrimmedNonempty s.name ∧ IsTrimmedNonempty s.description ∧
      (∀ v, s.short_description = some v → IsTrimmedNonempty v) ∧
      (∀ itf, s.interface = some itf →
        (∀ v, itf.display_name = some v → IsTrimmedNonempty v) ∧
        (∀ v, itf.short_description = some v → IsTrimmedNonempty v)) ∧
      IsTrimmedNonempty s.display_name ∧
      IsTrimmedNonempty s.display_description := by
  intro s hs
  have hraw : s ∈ raw_skills env cwd :=
    ((dedup_by_path_spec (raw_skills env cwd) []).1 s
      ((mem_load_skills_iff env cwd s).mp hs)).1
  obtain ⟨q, scope, hok⟩ := raw_skills_mem env cwd s hraw
  obtain ⟨h1, h2, h3, h4⟩ := parse_ok_invariant env q scope s hok
  refine ⟨h1, h2, h3, h4, ?_, ?_⟩
  · rw [SkillMetadata.display_name]
    rcases hitf : s.interface with _ | itf
    · simpa using h1
    · rcases hdn : itf.display_name with _ | v
      · simpa [hdn] using h1
      · have := (h4 itf hitf).1 v hdn
        simpa [hdn] using this
  · rw [SkillMetadata.display_description]
    rcases hitf : s.interface with _ | itf
    · rcases hsd : s.short_description with _ | v
      · simpa [hsd] using h2
      · simpa [hsd] using h3 v hsd
    · rcases hdn : itf.short_description with _ | v
      · rcases hsd : s.short_description with _ | w
        · simpa [hdn, hsd] using h2
        · simpa [hdn, hsd] using h3 w hsd
      · have := (h4 itf hitf).2 v hdn
        simpa [hdn] using this

/-- Witness for the trimming claim, at the one skill of `userEnv`. -/
theorem load_skills_fields_trimmed_witness :
    IsTrimmedNonempty (rustTrim " a ") ∧ IsTrimmedNonempty (rustTrim " b ") ∧
    (∀ v, trimNonEmpty (some " c ") = some v → IsTrimmedNonempty v) ∧
    (∀ itf, (none : Option SkillInterface) = some itf →
      (∀ v, itf.display_name = some v → IsTrimmedNonempty v) ∧
      (∀ v, itf.short_description = some v → IsTrimmedNonempty v)) ∧
    IsTrimmedNonempty (SkillMetadata.display_name
      ⟨rustTrim " a ", rustTrim " b ", trimNonEmpty (some " c "), none,
        ["h", "skills", "s1", "SKILL.md"], SkillScope.User⟩) ∧
    IsTrimmedNonempty (SkillMetadata.display_description
      ⟨rustTrim " a ", rustTrim " b ", trimNonEmpty (some " c "), none,
        ["h", "skills", "s1", "SKILL.md"], SkillScope.User⟩) :=
  load_skills_fields_trimmed userEnv ["w"]
    ⟨rustTrim " a ", rustTrim " b ", trimNonEmpty (some " c "), none,
      ["h", "skills", "s1", "SKILL.md"], SkillScope.User⟩ (by decide)

/-! Root resolution: the scanned ancestor prefix and the emitted roots. -/

theorem ancestors_nodup (p : FsPath) : (ancestors p).Nodup := by
  rw [ancestors, List.nodup_reverse]
  induction p with
  | nil => simp
  | cons a l ih =>
    rw [List.inits_cons, List.nodup_cons]
    constructor
    · intro hmem
      rcases List.mem_map.mp hmem with ⟨t, _, ht⟩
      simp at ht
    · exact ih.map (fun x y h => by injection h)

theorem scan_until_root_none : ∀ l : List FsPath, scan_until_root none l = l
  | [] => rfl
  | a :: rest => by
    rw [scan_until_root, if_neg (by simp)]
    rw [scan_until_root_none rest]

theorem scan_until_root_spec (marker : FsPath → Bool) :
    ∀ l : List FsPath, l.Nodup →
      scan_until_root (l.find? marker) l =
        match l.find? marker with
        | some r => l.takeWhile (fun a => !marker a) ++ [r]
        | none => l := by
  intro l
  induction l with
  | nil => intro _; rfl
  | cons a rest ih =>
    intro hnd
    rw [List.nodup_cons] at hnd
    by_cases ha : marker a
    · rw [List.find?_cons_of_pos _ ha]
      rw [scan_until_root, if_pos rfl]
      rw [List.takeWhile_cons]
      simp [ha]
    · rw [List.find?_cons_of_neg _ (by simp [ha])]
      rcases hf : rest.find? marker with _ | r
      · rw [scan_until_root, if_neg (by simp)]
        have h2 := ih hnd.2
        rw [hf] at h2
        rw [h2]
      · have hrmem : r ∈ rest := List.mem_of_find?_eq_some hf
        have hne : a ≠ r := fun h => hnd.1 (h ▸ hrmem)
        rw [scan_until_root, if_neg (by simp [hne])]
        have h2 := ih hnd.2
        rw [hf] at h2
        rw [h2, List.takeWhile_cons, if_pos (by simp [ha])]
        rfl

theorem foldl_repo_push (env : Env) :
    ∀ (l : List FsPath) (acc : List SkillRoot),
      l.foldl (fun roots dir =>
        if env.is_dir (dir ++ [".codex", SKILLS_DIR_NAME]) then
          roots ++ [⟨dir ++ [".codex", SKILLS_DIR_NAME], SkillScope.Repo, true⟩]
        else roots) acc =
      acc ++ l.filterMap (fun dir =>
        if env.is_dir (dir ++ [".codex", SKILLS_DIR_NAME]) then
          some ⟨dir ++ [".codex", SKILLS_DIR_NAME], SkillScope.Repo, true⟩
        else none)
  | [], acc => by simp
  | dir :: rest, acc => by
    rw [List.foldl_cons, List.filterMap_cons]
    by_cases h : env.is_dir (dir ++ [".codex", SKILLS_DIR_NAME])
    · rw [if_pos h, if_pos h, foldl_repo_push env rest]
      rw [List.append_assoc]
      rfl
    · rw [if_neg h, if_neg h, foldl_repo_push env rest]

/-- Claim C6: `skill_roots` emits, in order, one Repo root
`<ancestor>/.codex/skills` for each scanned ancestor whose such child is
a directory — the scanned ancestors being those from the starting
directory (closest first) up to and including the first one whose
`.git` child exists, or all of them when none has one —, then, when a
home configuration directory is found (the non-empty override variable,
else `<home>/.codex`), a System root `<home>/skills/.system` with
symlink-following off followed by a User root `<home>/skills` with
symlink-following on, and finally the Unix Admin root
`/etc/codex/skills`. -/
theorem skill_roots_emission (env : Env) (cwd : FsPath) :
    (repo_dirs_between env cwd =
      match find_repo_root env cwd with
      | some r => (ancestors cwd).takeWhile
          (fun a => !env.path_exists (a ++ [".git"])) ++ [r]
      | none => ancestors cwd) ∧
    (find_codex_home env =
      match env.codex_home_var with
      | some v => if v ≠ "" then some (env.path_of_string v)
          else env.home_dir.map (fun home => home ++ [".codex"])
      | none => env.home_dir.map (fun home => home ++ [".codex"])) ∧
    (skill_roots env cwd =
      (repo_dirs_between env cwd).filterMap (fun dir =>
        if env.is_dir (dir ++ [".codex", SKILLS_DIR_NAME]) then
          some ⟨dir ++ [".codex", SKILLS_DIR_NAME], SkillScope.Repo, true⟩
        else none) ++
      (match find_codex_home env with
       | some codex_home =>
         [⟨codex_home ++ [SKILLS_DIR_NAME] ++ [SYSTEM_SKILLS_DIR_NAME],
            SkillScope.System, false⟩,
          ⟨codex_home ++ [SKILLS_DIR_NAME], SkillScope.User, true⟩]
       | none => []) ++
      [⟨["etc", "codex", SKILLS_DIR_NAME], SkillScope.Admin, true⟩]) := by
  refine ⟨?_, ?_, ?_⟩
  · rw [repo_dirs_between, find_repo_root]
    exact scan_until_root_spec _ (ancestors cwd) (ancestors_nodup cwd)
  · rw [find_codex_home]
    rcases env.codex_home_var with _ | v
    · rfl
    · by_cases hv : v = ""
      · simp [hv]
      · simp [hv]
  · rw [skill_roots]
    rw [foldl_repo_push env (repo_dirs_between env cwd) []]
    rw [List.nil_append]
    rcases find_codex_home env with _ | codex_home
    · simp
    · simp

end SkillsDiscovery
